import Mathlib

/-!
Shallow embedding of the question-answering-with-search pipeline from
`examples/Question_answering_using_a_search_API.ipynb`.

The notebook is a three-stage pipeline: query expansion, search with
deduplication, embedding-based re-ranking, and answer synthesis with
streaming. External capabilities (language model, embedding endpoint,
search endpoint) are modelled as function parameters; machine floats are
idealized as exact rationals.
-/

namespace QASearch

/-- An article returned by the search endpoint: the four fields the
notebook reads (`title`, `description`, `content`, `url`). -/
structure Article where
  title : String
  description : String
  content : String
  url : String
deriving DecidableEq, Repr

/-- A search-endpoint response: a status flag, the article list, and an
error message (`result["status"]`, `result["articles"]`, `result["message"]`). -/
structure SearchResponse where
  status : String
  articles : List Article
  message : String

/-- `queries = json_gpt(QUERIES_INPUT)["queries"]; queries.append(USER_QUESTION)`:
the model-generated query list with the original question appended. -/
def buildQueries (generated : List String) (question : String) : List String :=
  generated ++ [question]

/-- The search loop:
`for query in queries: result = search_news(query); if result["status"] == "ok":
articles = articles + result["articles"] else: raise Exception(result["message"])`.
The loop is strictly sequential; a non-"ok" status aborts with the response's
message, modelled by `Except.error`. -/
def searchLoop (search : String → SearchResponse) :
    List String → List Article → Except String (List Article)
  | [], acc => .ok acc
  | q :: qs, acc =>
    let r := search q
    if r.status = "ok" then searchLoop search qs (acc ++ r.articles)
    else .error r.message

/-- One step of building the python dict `{article["url"]: article for article in articles}`:
if the accumulator already holds the URL, the value is replaced in place
(the key keeps its position); otherwise the article is appended. -/
def updateByUrl : List Article → Article → List Article
  | [], a => [a]
  | b :: bs, a => if b.url = a.url then a :: bs else b :: updateByUrl bs a

/-- `articles = list({article["url"]: article for article in articles}.values())`:
insertion-ordered mapping from URL to article, last write wins. -/
def dedupByUrl (l : List Article) : List Article :=
  l.foldl updateByUrl []

/-- The list of distinct URLs in order of first occurrence; describes the
key order of the python dict built by the deduplication step. -/
def firstUrlDedup : List String → List String
  | [] => []
  | u :: us => u :: firstUrlDedup (us.filter (fun v => !(v == u)))
termination_by l => l.length
decreasing_by
  simp only [List.length_cons]
  exact Nat.lt_succ_of_le (List.length_filter_le _ _)

/-- The text embedded for one article:
`f"{article['title']} {article['description']} {article['content'][0:100]}"`. -/
def articleText (a : Article) : String :=
  a.title ++ " " ++ a.description ++ " " ++ a.content.take 100

/-- The list of strings handed to the embedding capability, one per article. -/
def articleInputs (articles : List Article) : List String :=
  articles.map articleText

/-- The `embeddings` helper: one embedding per input string. -/
def embedList (embed : String → List ℚ) (inputs : List String) : List (List ℚ) :=
  inputs.map embed

/-- `article_embeddings = embeddings([... for article in articles])`. -/
def articleEmbeddings (embed : String → List ℚ) (articles : List Article) :
    List (List ℚ) :=
  embedList embed (articleInputs articles)

/-- `hypothetical_answer_embedding = embeddings(hypothetical_answer)[0]`:
the single string is one input, the first returned embedding is taken. -/
def hypotheticalAnswerEmbedding (embed : String → List ℚ) (hypo : String) :
    List ℚ :=
  (embedList embed [hypo]).headD []

/-- `numpy.dot` on two vectors: sum of pointwise products. -/
def dotProduct (v w : List ℚ) : ℚ :=
  ((v.zip w).map (fun p => p.1 * p.2)).sum

/-- Squared Euclidean norm; a unit vector is one with `normSq v = 1`. -/
def normSq (v : List ℚ) : ℚ :=
  (v.map (fun x => x * x)).sum

/-- The scoring loop: one dot product of each article embedding against the
hypothetical-answer embedding. -/
def cosineSimilarities (hypoEmb : List ℚ) (embs : List (List ℚ)) : List ℚ :=
  embs.map (fun e => dotProduct hypoEmb e)

/-- `scored_articles = zip(articles, cosine_similarities)`. -/
def scoredArticles (articles : List Article) (sims : List ℚ) :
    List (Article × ℚ) :=
  articles.zip sims

/-- Stable insertion of a scored article into a descending-sorted list:
the pair goes before the first element whose score it meets or exceeds,
so a tie keeps the earlier element first. -/
def insertScoredDesc (x : Article × ℚ) : List (Article × ℚ) → List (Article × ℚ)
  | [] => [x]
  | y :: ys => if y.2 ≤ x.2 then x :: y :: ys else y :: insertScoredDesc x ys

/-- `sorted_articles = sorted(scored_articles, key=lambda x: x[1], reverse=True)`:
python's `sorted` is a stable sort; descending by score with ties in input
order is realized by stable insertion sort. -/
def sortScoredDesc : List (Article × ℚ) → List (Article × ℚ)
  | [] => []
  | x :: xs => insertScoredDesc x (sortScoredDesc xs)

/-- The projection sent to answer synthesis: `{title, description, url}`. -/
structure FormattedResult where
  title : String
  description : String
  url : String
deriving DecidableEq, Repr

/-- `formatted_top_results = [{...} for article, _score in sorted_articles[0:5]]`. -/
def formatTopResults (sorted : List (Article × ℚ)) : List FormattedResult :=
  (sorted.take 5).map (fun p => ⟨p.1.title, p.1.description, p.1.url⟩)

/-- `text = ""; for chunk in completion: text += chunk...`: the final
accumulated answer text. -/
def finalText (frags : List String) : String :=
  frags.foldl (fun r s => r ++ s) ""

/-- The sequence of displayed states of the streaming loop: after each
fragment the display is overwritten with the accumulation so far. -/
def streamStatesAux (acc : String) : List String → List String
  | [] => []
  | f :: fs => (acc ++ f) :: streamStatesAux (acc ++ f) fs

/-- Displayed states of the whole stream, starting from the empty text. -/
def streamStates (frags : List String) : List String :=
  streamStatesAux "" frags

/-! ### Helper lemmas -/

theorem dotProduct_self (v : List ℚ) : dotProduct v v = normSq v := by
  induction v with
  | nil => rfl
  | cons x xs ih => simp [dotProduct, normSq] at ih ⊢; exact ih

theorem dotProduct_comm (v w : List ℚ) : dotProduct v w = dotProduct w v := by
  induction v generalizing w with
  | nil => cases w <;> rfl
  | cons x xs ih =>
    cases w with
    | nil => rfl
    | cons y ys => simp [dotProduct] at ih ⊢; rw [mul_comm, ih ys]

theorem finalText_cons_eq (f : String) (fs : List String) :
    finalText (f :: fs) = f ++ finalText fs := by
  have key : ∀ (l : List String) (a : String),
      l.foldl (fun r s => r ++ s) a = a ++ l.foldl (fun r s => r ++ s) "" := by
    intro l
    induction l with
    | nil => intro a; simp [List.foldl]
    | cons g gs ih =>
      intro a
      simp only [List.foldl]
      rw [ih (a ++ g), ih ("" ++ g), String.append_assoc]
      simp
  simp only [finalText, List.foldl]
  rw [key fs ("" ++ f)]
  simp

theorem streamStatesAux_eq (fs : List String) :
    ∀ acc : String,
      streamStatesAux acc fs =
        (List.range fs.length).map (fun i => acc ++ finalText (fs.take (i + 1))) := by
  induction fs with
  | nil => intro acc; rfl
  | cons f fs ih =>
    intro acc
    have hcons : streamStatesAux acc (f :: fs)
        = (acc ++ f) :: streamStatesAux (acc ++ f) fs := rfl
    rw [hcons, ih (acc ++ f), List.length_cons, List.range_succ_eq_map,
      List.map_cons, List.map_map]
    refine congrArg₂ List.cons ?_ ?_
    · simp [finalText]
    · refine List.map_congr_left ?_
      intro i _
      simp only [Function.comp, List.take_succ_cons, finalText_cons_eq,
        String.append_assoc]

theorem insertScoredDesc_perm (x : Article × ℚ) (l : List (Article × ℚ)) :
    List.Perm (insertScoredDesc x l) (x :: l) := by
  induction l with
  | nil => exact List.Perm.refl _
  | cons y ys ih =>
    by_cases h : y.2 ≤ x.2
    · simp [insertScoredDesc, h]
    · simp only [insertScoredDesc, if_neg h]
      exact (ih.cons y).trans (List.Perm.swap x y ys)

theorem sortScoredDesc_perm (l : List (Article × ℚ)) :
    List.Perm (sortScoredDesc l) l := by
  induction l with
  | nil => exact List.Perm.refl _
  | cons x xs ih =>
    exact (insertScoredDesc_perm x (sortScoredDesc xs)).trans (ih.cons x)

theorem insertScoredDesc_sorted (x : Article × ℚ) (l : List (Article × ℚ))
    (h : l.Pairwise (fun a b => b.2 ≤ a.2)) :
    (insertScoredDesc x l).Pairwise (fun a b => b.2 ≤ a.2) := by
  induction l with
  | nil => simp [insertScoredDesc]
  | cons y ys ih =>
    rcases List.pairwise_cons.1 h with ⟨hy, hys⟩
    by_cases hc : y.2 ≤ x.2
    · simp only [insertScoredDesc, if_pos hc]
      refine List.pairwise_cons.2 ⟨?_, h⟩
      intro z hz
      rcases List.mem_cons.1 hz with hzy | hzys
      · rw [hzy]; exact hc
      · exact le_trans (hy z hzys) hc
    · simp only [insertScoredDesc, if_neg hc]
      refine List.pairwise_cons.2 ⟨?_, ih hys⟩
      intro z hz
      have hz' : z ∈ x :: ys := ((insertScoredDesc_perm x ys).mem_iff).1 hz
      rcases List.mem_cons.1 hz' with hzx | hzys
      · rw [hzx]; exact le_of_not_le hc
      · exact hy z hzys

theorem filter_insertScoredDesc (x : Article × ℚ) (l : List (Article × ℚ))
    (s : ℚ) :
    (insertScoredDesc x l).filter (fun p => p.2 == s)
      = (x :: l).filter (fun p => p.2 == s) := by
  induction l with
  | nil => rfl
  | cons y ys ih =>
    by_cases hc : y.2 ≤ x.2
    · simp [insertScoredDesc, hc]
    · have hxy : x.2 < y.2 := lt_of_not_le hc
      simp only [insertScoredDesc, if_neg hc]
      by_cases hy : y.2 = s
      · have hx : ¬(x.2 = s) := by rw [← hy]; exact ne_of_lt hxy
        simp [List.filter_cons, hy, hx, ih]
      · by_cases hx : x.2 = s
        · simp [List.filter_cons, hy, hx, ih]
        · simp [List.filter_cons, hy, hx, ih]

/-! ### Claim theorems -/

/-- C1: re-ranking sorts the scored pairs descending by score with a stable
sort — the output is pairwise descending, is a permutation of the input, and
for every score value the pairs carrying it keep their relative input order;
on scores `[0.2, 0.9, 0.5]` the output order is input indices `[1, 2, 0]`. -/
theorem sortScoredDesc_spec :
    (∀ l : List (Article × ℚ),
        (sortScoredDesc l).Pairwise (fun a b => b.2 ≤ a.2)) ∧
    (∀ l : List (Article × ℚ), List.Perm (sortScoredDesc l) l) ∧
    (∀ (l : List (Article × ℚ)) (s : ℚ),
        (sortScoredDesc l).filter (fun p => p.2 == s)
          = l.filter (fun p => p.2 == s)) ∧
    (∀ a0 a1 a2 : Article,
        sortScoredDesc [(a0, (0.2 : ℚ)), (a1, 0.9), (a2, 0.5)]
          = [(a1, 0.9), (a2, 0.5), (a0, 0.2)]) := by
  refine ⟨?_, sortScoredDesc_perm, ?_, ?_⟩
  · intro l
    induction l with
    | nil => simp [sortScoredDesc]
    | cons x xs ih => exact insertScoredDesc_sorted x _ ih
  · intro l s
    induction l with
    | nil => rfl
    | cons x xs ih =>
      rw [sortScoredDesc, filter_insertScoredDesc, List.filter_cons,
        List.filter_cons, ih]
  · intro a0 a1 a2
    norm_num [sortScoredDesc, insertScoredDesc]

/-- C4: the query list is the model-generated list with the original user
question appended as its final element; the original question is always
included and always last. -/
theorem buildQueries_spec (g : List String) (q : String) :
    (buildQueries g q).getLast? = some q ∧ (buildQueries g q).dropLast = g ∧
      q ∈ buildQueries g q := by
  refine ⟨?_, ?_, ?_⟩ <;> simp [buildQueries]

/-- C9: the dot product of a unit vector with itself is `1`; orthogonal
unit vectors (concretely, the standard basis vectors) score `0`, in either
argument order. Machine floats are idealized as exact rationals. -/
theorem dotProduct_unit_spec :
    (∀ v : List ℚ, normSq v = 1 → dotProduct v v = 1) ∧
    (∀ v w : List ℚ, dotProduct v w = dotProduct w v) ∧
    normSq [(1 : ℚ), 0] = 1 ∧ normSq [(0 : ℚ), 1] = 1 ∧
    dotProduct [(1 : ℚ), 0] [0, 1] = 0 := by
  refine ⟨?_, dotProduct_comm, ?_, ?_, ?_⟩
  · intro v hv; rw [dotProduct_self, hv]
  · norm_num [normSq]
  · norm_num [normSq]
  · norm_num [dotProduct]

/-- Witness for C9 at the concrete unit vector `[1, 0]`. -/
theorem dotProduct_unit_spec_witness :
    dotProduct [(1 : ℚ), 0] [(1 : ℚ), 0] = 1 :=
  dotProduct_unit_spec.1 [1, 0] (by norm_num [normSq])

/-- C5: exactly one embedding is computed per article and one for the
hypothetical answer; each article's embedded text is built from its title,
its description and the first 100 characters of its content (the text
depends on nothing else), with the truncation the fixed constant 100. -/
theorem embedding_inputs_spec :
    (∀ (embed : String → List ℚ) (l : List Article),
        (articleEmbeddings embed l).length = l.length) ∧
    (∀ (embed : String → List ℚ) (hypo : String),
        (embedList embed [hypo]).length = 1) ∧
    (∀ a b : Article, a.title = b.title → a.description = b.description →
        a.content.take 100 = b.content.take 100 → articleText a = articleText b) ∧
    (∀ (embed : String → List ℚ) (l : List Article),
        articleEmbeddings embed l = l.map (fun a => embed (articleText a))) := by
  refine ⟨?_, ?_, ?_, ?_⟩
  · intro embed l; simp [articleEmbeddings, embedList, articleInputs]
  · intro embed hypo; rfl
  · intro a b h1 h2 h3; simp only [articleText, h1, h2, h3]
  · intro embed l; simp [articleEmbeddings, embedList, articleInputs]

/-- Witness for C5: two articles agreeing on title, description and content
produce the same embedded text even though their URLs differ. -/
theorem embedding_inputs_spec_witness :
    articleText ⟨"t", "d", "c", "u1"⟩ = articleText ⟨"t", "d", "c", "u2"⟩ :=
  embedding_inputs_spec.2.2.1 ⟨"t", "d", "c", "u1"⟩ ⟨"t", "d", "c", "u2"⟩
    rfl rfl rfl

/-- C8: after the `i`-th fragment the displayed text is the accumulation of
the first `i + 1` fragments (each display overwrites the previous one), and
the final accumulated text is the concatenation of all fragments in arrival
order. -/
theorem streamStates_spec (frags : List String) :
    streamStates frags =
      (List.range frags.length).map (fun i => finalText (frags.take (i + 1))) ∧
    finalText frags = String.join frags := by
  constructor
  · rw [streamStates, streamStatesAux_eq]
    refine List.map_congr_left ?_
    intro i _
    simp
  · rfl

/-- C7: answer synthesis uses exactly the first five ranked pairs — the
output has length `min 5 n`, depends only on the first five input entries —
and each record holds exactly the title, description and URL of the
corresponding ranked article. -/
theorem formatTopResults_spec :
    (∀ s : List (Article × ℚ), (formatTopResults s).length = min 5 s.length) ∧
    (∀ s t : List (Article × ℚ), s.take 5 = t.take 5 →
        formatTopResults s = formatTopResults t) ∧
    (∀ (s : List (Article × ℚ)) (i : ℕ) (h1 : i < (formatTopResults s).length)
        (h2 : i < s.length),
        (formatTopResults s).get ⟨i, h1⟩ =
          ⟨(s.get ⟨i, h2⟩).1.title, (s.get ⟨i, h2⟩).1.description,
            (s.get ⟨i, h2⟩).1.url⟩) := by
  refine ⟨?_, ?_, ?_⟩
  · intro s; simp [formatTopResults]
  · intro s t h; simp only [formatTopResults, h]
  · intro s i h1 h2
    simp [formatTopResults, List.get_eq_getElem, List.getElem_map,
      List.getElem_take]

/-- Witness for C7: two six-element ranked lists agreeing on their first
five entries format identically. -/
theorem formatTopResults_spec_witness :
    formatTopResults
        [(⟨"t", "d", "c", "u"⟩, (1 : ℚ)), (⟨"t", "d", "c", "u"⟩, 1),
          (⟨"t", "d", "c", "u"⟩, 1), (⟨"t", "d", "c", "u"⟩, 1),
          (⟨"t", "d", "c", "u"⟩, 1), (⟨"t", "d", "c", "u"⟩, 1)] =
      formatTopResults
        [(⟨"t", "d", "c", "u"⟩, (1 : ℚ)), (⟨"t", "d", "c", "u"⟩, 1),
          (⟨"t", "d", "c", "u"⟩, 1), (⟨"t", "d", "c", "u"⟩, 1),
          (⟨"t", "d", "c", "u"⟩, 1), (⟨"x", "y", "z", "w"⟩, 2)] :=
  formatTopResults_spec.2.1 _ _ rfl

/-- C3: when the sequential search loop meets a response whose status is not
`"ok"` (the first such query is the one `find?` locates, since the loop
stops there and later queries are never issued), the loop aborts with an
error carrying exactly that response's message — no article list is
produced, whatever was accumulated before. -/
theorem searchLoop_error_spec (search : String → SearchResponse)
    (qs : List String) (acc : List Article) (q : String)
    (h : qs.find? (fun q' => (search q').status != "ok") = some q) :
    searchLoop search qs acc = .error (search q).message := by
  induction qs generalizing acc with
  | nil => simp at h
  | cons a as ih =>
    by_cases hs : (search a).status = "ok"
    · have hfa : ((fun q' => (search q').status != "ok") a) = false := by
        simp [hs]
      rw [List.find?_cons_of_neg _ (by simp [hs])] at h
      simp only [searchLoop, if_pos hs]
      exact ih _ h
    · rw [List.find?_cons_of_pos _ (by simp [hs])] at h
      have hq : q = a := by simpa using h.symm
      simp [searchLoop, hs, hq]

/-- Witness for C3: a stub search endpoint that fails with message
`"rate limited"` makes the loop abort with exactly that message. -/
theorem searchLoop_error_spec_witness :
    searchLoop (fun _ => ⟨"error", [], "rate limited"⟩) ["q1"] []
      = .error "rate limited" :=
  searchLoop_error_spec (fun _ => ⟨"error", [], "rate limited"⟩) ["q1"] []
    "q1" (by simp [List.find?])

/-- C6: when every query's response has status `"ok"`, the accumulated
article list is the concatenation of the per-query article lists in
query order — the loop issues the queries one at a time, sequentially. -/
theorem searchLoop_ok_spec (search : String → SearchResponse)
    (qs : List String) (acc : List Article)
    (h : ∀ q ∈ qs, (search q).status = "ok") :
    searchLoop search qs acc
      = .ok (acc ++ (qs.map (fun q => (search q).articles)).flatten) := by
  induction qs generalizing acc with
  | nil => simp [searchLoop]
  | cons a as ih =>
    have ha : (search a).status = "ok" := h a (by simp)
    simp only [searchLoop, if_pos ha]
    rw [ih (acc ++ (search a).articles) (fun q hq => h q (by simp [hq]))]
    simp [List.flatten]

/-- Witness for C6: two all-"ok" stub responses accumulate in query order. -/
theorem searchLoop_ok_spec_witness :
    searchLoop
        (fun q => ⟨"ok", [⟨q, "d", "c", q⟩], ""⟩) ["q1", "q2"] []
      = .ok [⟨"q1", "d", "c", "q1"⟩, ⟨"q2", "d", "c", "q2"⟩] := by
  have := searchLoop_ok_spec (fun q => ⟨"ok", [⟨q, "d", "c", q⟩], ""⟩)
    ["q1", "q2"] [] (by intro q hq; rfl)
  simpa using this

theorem length_filter_cons_le (p : Article → Bool) (b : Article)
    (bs : List Article) :
    (bs.filter p).length ≤ ((b :: bs).filter p).length := by
  rw [List.filter_cons]
  by_cases h : p b <;> simp [h]

theorem filter_updateByUrl (acc : List Article) (a : Article) (u : String)
    (h : ∀ v, (acc.filter (fun x => x.url == v)).length ≤ 1) :
    (updateByUrl acc a).filter (fun x => x.url == u)
      = if a.url = u then [a] else acc.filter (fun x => x.url == u) := by
  induction acc with
  | nil =>
    by_cases ha : a.url = u <;> simp [updateByUrl, ha]
  | cons b bs ih =>
    have h' : ∀ v, (bs.filter (fun x => x.url == v)).length ≤ 1 :=
      fun v => le_trans (length_filter_cons_le _ b bs) (h v)
    by_cases hb : b.url = a.url
    · simp only [updateByUrl, if_pos hb]
      by_cases ha : a.url = u
      · have hbu : b.url = u := hb.trans ha
        have hlen := h u
        rw [List.filter_cons] at hlen
        simp only [hbu, beq_self_eq_true, if_pos] at hlen
        have hnil : bs.filter (fun x => x.url == u) = [] := by
          cases hfe : bs.filter (fun x => x.url == u) with
          | nil => rfl
          | cons c cs => rw [hfe] at hlen; simp at hlen
        simp [List.filter_cons, ha, hnil]
      · have hbu : ¬b.url = u := by rw [hb]; exact ha
        simp [List.filter_cons, ha, hbu]
    · simp only [updateByUrl, if_neg hb]
      by_cases hbu : b.url = u
      · have ha : ¬a.url = u := fun ha => hb (hbu.trans ha.symm)
        simp [List.filter_cons, hbu, ha, ih h']
      · simp [List.filter_cons, hbu, ih h']

theorem updateByUrl_uniq (acc : List Article) (a : Article)
    (h : ∀ v, (acc.filter (fun x => x.url == v)).length ≤ 1) :
    ∀ v, ((updateByUrl acc a).filter (fun x => x.url == v)).length ≤ 1 := by
  intro v
  rw [filter_updateByUrl acc a v h]
  by_cases ha : a.url = v
  · simp [ha]
  · simp only [if_neg ha]; exact h v

theorem filter_foldl_updateByUrl (l : List Article) :
    ∀ (acc : List Article) (u : String),
      (∀ v, (acc.filter (fun x => x.url == v)).length ≤ 1) →
      (l.foldl updateByUrl acc).filter (fun x => x.url == u)
        = ((acc.filter (fun x => x.url == u))
            ++ (l.filter (fun x => x.url == u))).getLast?.toList := by
  induction l with
  | nil =>
    intro acc u h
    simp only [List.foldl_nil, List.filter_nil, List.append_nil]
    have hlen := h u
    cases hL : acc.filter (fun x => x.url == u) with
    | nil => simp
    | cons x xs =>
      rw [hL] at hlen
      have hxs : xs = [] := by
        cases xs with
        | nil => rfl
        | cons y ys => simp at hlen
      subst hxs
      simp
  | cons a l' ih =>
    intro acc u h
    rw [List.foldl_cons, ih (updateByUrl acc a) u (updateByUrl_uniq acc a h),
      filter_updateByUrl acc a u h]
    by_cases ha : a.url = u
    · simp only [if_pos ha, List.filter_cons, ha, beq_self_eq_true, if_pos,
        List.singleton_append]
      rw [List.getLast?_append_of_ne_nil _ (List.cons_ne_nil _ _)]
    · simp [List.filter_cons, ha]

theorem map_url_updateByUrl (acc : List Article) (a : Article) :
    (updateByUrl acc a).map (fun x => x.url)
      = if a.url ∈ acc.map (fun x => x.url) then acc.map (fun x => x.url)
        else acc.map (fun x => x.url) ++ [a.url] := by
  induction acc with
  | nil => simp [updateByUrl]
  | cons b bs ih =>
    by_cases hb : b.url = a.url
    · simp [updateByUrl, hb]
    · simp only [updateByUrl, if_neg hb, List.map_cons, ih]
      by_cases hm : a.url ∈ bs.map (fun x => x.url)
      · simp [hm, List.mem_cons]
      · have hba : ¬a.url = b.url := fun e => hb e.symm
        simp [hm, hba, List.mem_cons]

theorem map_url_foldl_updateByUrl (l : List Article) :
    ∀ acc : List Article,
      (l.foldl updateByUrl acc).map (fun x => x.url)
        = acc.map (fun x => x.url)
          ++ firstUrlDedup
              ((l.map (fun x => x.url)).filter
                (fun v => !(decide (v ∈ acc.map (fun x => x.url))))) := by
  induction l with
  | nil => intro acc; simp [firstUrlDedup]
  | cons a l' ih =>
    intro acc
    rw [List.foldl_cons, ih (updateByUrl acc a)]
    by_cases hm : a.url ∈ acc.map (fun x => x.url)
    · have hU : (updateByUrl acc a).map (fun x => x.url)
          = acc.map (fun x => x.url) := by
        rw [map_url_updateByUrl, if_pos hm]
      rw [hU]
      simp only [List.map_cons, List.filter_cons]
      have hd : (!decide (a.url ∈ acc.map (fun x => x.url))) = false := by
        simp [hm]
      rw [hd]
      simp
    · have hU : (updateByUrl acc a).map (fun x => x.url)
          = acc.map (fun x => x.url) ++ [a.url] := by
        rw [map_url_updateByUrl, if_neg hm]
      rw [hU]
      simp only [List.map_cons, List.filter_cons]
      have hd : (!decide (a.url ∈ acc.map (fun x => x.url))) = true := by
        simp [hm]
      rw [hd]
      simp only [if_pos]
      have hfu : firstUrlDedup
          (a.url :: (l'.map (fun x => x.url)).filter
            (fun v => !(decide (v ∈ acc.map (fun x => x.url)))))
          = a.url :: firstUrlDedup
              (((l'.map (fun x => x.url)).filter
                (fun v => !(decide (v ∈ acc.map (fun x => x.url))))).filter
                (fun v => !(v == a.url))) := by
        simp [firstUrlDedup]
      rw [hfu, List.filter_filter]
      have hpred : ((l'.map (fun x => x.url)).filter
          (fun v => !(v == a.url) && !(decide (v ∈ acc.map (fun x => x.url)))))
          = ((l'.map (fun x => x.url)).filter
              (fun v => !(decide
                (v ∈ acc.map (fun x => x.url) ++ [a.url])))) := by
        refine List.filter_congr ?_
        intro v _
        by_cases h1 : v = a.url <;> by_cases h2 : v ∈ acc.map (fun x => x.url) <;>
          simp [h1, h2]
      rw [hpred, List.append_assoc, List.singleton_append]

/-- C2: deduplication keeps exactly one article per distinct URL of the
input, and that article is the last article in input order bearing the URL:
for every URL `u`, the output's articles with URL `u` are exactly the last
input occurrence (empty when `u` never occurs). -/
theorem dedupByUrl_spec (l : List Article) (u : String) :
    (dedupByUrl l).filter (fun a => a.url == u)
      = ((l.filter (fun a => a.url == u)).getLast?).toList := by
  have h := filter_foldl_updateByUrl l [] u (by intro v; simp)
  simpa [dedupByUrl] using h

/-- C10: the deduplicated sequence lists URLs in order of their first
occurrence in the input — each URL keeps the position where it was first
inserted into the python dict, even though C2 shows the kept fields come
from the last occurrence. -/
theorem dedupByUrl_order_spec (l : List Article) :
    (dedupByUrl l).map (fun a => a.url)
      = firstUrlDedup (l.map (fun a => a.url)) := by
  have h := map_url_foldl_updateByUrl l []
  simpa [dedupByUrl] using h

end QASearch
